import Mathlib

/-!
Verification of the numerical core of the Parametric-Curves repository
(`parametric_curve_functions.py`): clamped knot-vector generation
(`non_periodic_knot`), the Cox–de Boor blending-function table
(`blending_func`), curve evaluation (`B_spline`, the Bézier loop of
`bezier_poly_interact`), and the validation / input-coercion logic of
`B_spline_interact`.

The numpy code is vectorised over the sample array `u`; every array
operation it performs is elementwise in the samples, so the embedding
works with a single sample `u : ℚ` at a time.  Machine floats are
modelled by exact rationals.
-/

namespace ParametricCurves

/-- Bernstein polynomial `comb(n,i) * u**i * (1-u)**(n-i)`
(source line 50, with `comb` the binomial coefficient). -/
def bernstein (n i : ℕ) (u : ℚ) : ℚ :=
  (n.choose i : ℚ) * u ^ i * (1 - u) ^ (n - i)

/-- The evaluation loop of `bezier_poly_interact` (source lines 44-51), for one
sample value `u`: starting from the empty basis list `Bi` and the zero
accumulator `P_u`, for `i = 0 .. n` (with `n = len(P) - 1`) append
`comb(n,i)*u^i*(1-u)^(n-i)` to `Bi` and add `Bi[i] * P_i[:,i]` to `P_u`.
Returns the pair `(Bi, P_u)` at this sample. -/
def bezier_loop (P : List (ℚ × ℚ)) (u : ℚ) : List ℚ × ℚ × ℚ :=
  (List.range (P.length - 1 + 1)).foldl
    (fun acc i =>
      (acc.1 ++ [bernstein (P.length - 1) i u],
       acc.2.1 + bernstein (P.length - 1) i u * (P.getD i (0, 0)).1,
       acc.2.2 + bernstein (P.length - 1) i u * (P.getD i (0, 0)).2))
    ([], 0, 0)

/-- The Bézier path of `bezier_poly_interact`: slice the control points to the
first `pt` columns (source line 42) and run the evaluation loop.  The source
performs no validation on this path. -/
def bezier_poly_interact (P : List (ℚ × ℚ)) (pt : ℕ) (u : ℚ) :
    List ℚ × ℚ × ℚ :=
  bezier_loop (P.take pt) u

/-- Python `int()` applied to an exact rational: truncation toward zero,
i.e. floor for nonnegative arguments and ceiling for negative ones,
matching CPython `int(float)`. -/
def pyInt (q : ℚ) : ℤ :=
  if q < 0 then ⌈q⌉ else ⌊q⌋

/-- Highlight-index derivation `t = int(t/h)` of the Bézier path
(source line 37). -/
def bezier_highlight (t h : ℚ) : ℤ :=
  pyInt (t / h)

/-- Highlight-index derivation `t = int((t/h)*u_i[-1])` of the B-spline path
(source line 241); `u_i[-1]` is the last knot. -/
def bspline_highlight (t h : ℚ) (knots : List ℚ) : ℤ :=
  pyInt (t / h * knots.getD (knots.length - 1) 0)

/-- The value written by `non_periodic_knot` (source lines 83-89) at index
`i`: `0` for `0 <= i < k`, `i-k+1` for `k <= i <= n`, and `n-k+2` for
`n < i <= n+k`.  The three branches cover every `i < n+k+1`. -/
def knotVal (n k i : ℕ) : ℚ :=
  if i < k then 0
  else if i ≤ n then (i : ℚ) - (k : ℚ) + 1
  else (n : ℚ) - (k : ℚ) + 2

/-- `non_periodic_knot(n, k)` (source lines 73-90): the clamped knot vector of
length `n+k+1`. -/
def non_periodic_knot (n k : ℕ) : List ℚ :=
  (List.range (n + k + 1)).map (knotVal n k)

/-- `N_ik_1` (source lines 121-124): the left term of the Cox–de Boor
recursion at level `d`, entry `i`, with a zero knot-span denominator giving
the zero term. -/
def leftTerm (u : ℚ) (knots : List ℚ) (d : ℕ) (prev : List ℚ) (i : ℕ) : ℚ :=
  if knots.getD (i + d - 1) 0 - knots.getD i 0 = 0 then 0
  else (u - knots.getD i 0) * prev.getD i 0 /
    (knots.getD (i + d - 1) 0 - knots.getD i 0)

/-- `N_ik_2` (source lines 126-129): the right term of the Cox–de Boor
recursion at level `d`, entry `i`, with a zero knot-span denominator giving
the zero term. -/
def rightTerm (u : ℚ) (knots : List ℚ) (d : ℕ) (prev : List ℚ) (i : ℕ) : ℚ :=
  if knots.getD (i + d) 0 - knots.getD (i + 1) 0 = 0 then 0
  else (knots.getD (i + d) 0 - u) * prev.getD (i + 1) 0 /
    (knots.getD (i + d) 0 - knots.getD (i + 1) 0)

/-- One level of the Cox–de Boor table for level `d ≥ 2` (source lines
118-133), at a single sample `u`: entry `i` (for `i` in
`range(len(knots) - d)`) is `N_ik = N_ik_1 + N_ik_2` (source line 131). -/
def blendStep (u : ℚ) (knots : List ℚ) (d : ℕ) (prev : List ℚ) : List ℚ :=
  (List.range (knots.length - d)).map (fun i =>
    leftTerm u knots d prev i + rightTerm u knots d prev i)

/-- Level `d` of the table built by `blending_func` (source lines 105-135) at
one sample `u`: level `0` stores the knot values themselves, level `1` the
indicator of `knots[i] <= u < knots[i+1]`, and level `d ≥ 2` the two-term
Cox–de Boor recursion on the previous level. -/
def blendRow (u : ℚ) (knots : List ℚ) : ℕ → List ℚ
  | 0 => knots
  | 1 => (List.range (knots.length - 1)).map (fun i =>
      if knots.getD i 0 ≤ u ∧ u < knots.getD (i + 1) 0 then (1 : ℚ) else 0)
  | d + 2 => blendStep u knots (d + 2) (blendRow u knots (d + 1))

/-- `blending_func(u, u_i, k)` (source lines 92-135) at one sample `u`: the
list of table levels `N[0] .. N[k]`. -/
def blending_func (u : ℚ) (knots : List ℚ) (k : ℕ) : List (List ℚ) :=
  (List.range (k + 1)).map (blendRow u knots)

/-- `B_spline(N, u, u_i, P_i, k)` (source lines 138-159) at one sample `u`:
starting from the zero point, add `N[k][i] * P_i[:,i]` for
`i` in `range(len(u_i) - k)`. -/
def B_spline (N : List (List ℚ)) (knots : List ℚ) (P : List (ℚ × ℚ))
    (k : ℕ) : ℚ × ℚ :=
  (List.range (knots.length - k)).foldl
    (fun acc i =>
      (acc.1 + (N.getD k []).getD i 0 * (P.getD i (0, 0)).1,
       acc.2 + (N.getD k []).getD i 0 * (P.getD i (0, 0)).2))
    (0, 0)

/-- Python sequence indexing `l[i]` over the embedded knot arrays: a
nonnegative index must be below the length, a negative index counts from the
end, and any other access raises `IndexError`, modelled as `none`. -/
def pyIndex (l : List ℚ) (i : ℤ) : Option ℚ :=
  if 0 ≤ i then
    if i < (l.length : ℤ) then some (l.getD i.toNat 0) else none
  else
    if 0 ≤ i + (l.length : ℤ) then some (l.getD (i + (l.length : ℤ)).toNat 0)
    else none

/-- The value written by `non_periodic_knot` at index `i` for arbitrary
Python-integer arguments `n`, `k` (source lines 83-89, including the
fall-through that leaves the `np.zeros` initialisation in place when no
branch matches). -/
def knotValI (n k : ℤ) (i : ℤ) : ℚ :=
  if 0 ≤ i ∧ i < k then 0
  else if k ≤ i ∧ i ≤ n then (i : ℚ) - (k : ℚ) + 1
  else if n < i ∧ i ≤ n + k then (n : ℚ) - (k : ℚ) + 2
  else 0

/-- `non_periodic_knot(n, k)` over arbitrary Python-integer arguments, as
called by `B_spline_interact` (where `int(k)` may be negative): an array of
`n+k+1` entries.  `np.zeros` of a negative size raises `ValueError`, which
the caller below checks before this function is entered. -/
def non_periodic_knotI (n k : ℤ) : List ℚ :=
  (List.range (n + k + 1).toNat).map (fun (i : ℕ) => knotValI n k (i : ℤ))

/-- The order argument of `B_spline_interact` as received from the notebook
widget: either the empty string or a value coerced by `int(k)`. -/
inductive OrderInput
  | empty : OrderInput
  | num : ℤ → OrderInput

/-- The coercion on source lines 226-229: the empty string becomes order `2`,
anything else is `int(k)`. -/
def parse_order : OrderInput → ℤ
  | OrderInput.empty => 2
  | OrderInput.num j => j

/-- Outcome of one `B_spline_interact` call: the two printed diagnostics
(the degree-too-high message of source line 235 and the
order-must-be-positive message of source line 237), or the computed knot
vector, basis table and curve point. -/
inductive BSplineOutcome
  | errDegree : ℤ → ℤ → BSplineOutcome
  | errOrderZero : BSplineOutcome
  | ok : List ℚ → List (List ℚ) → ℚ × ℚ → BSplineOutcome

/-- `B_spline_interact` (source lines 200-245) at one sample `u`, plotting
omitted: slice the control points to `pt` columns, coerce the order, and
validate `k > n+1` then `k == 0` before computing knots, table and curve.
The else branch reproduces the faults of the source: `np.zeros(n+k+1)`
raises `ValueError` when `n+k+1 < 0`, and
`np.arange(u_i[k-1], u_i[n+1], h)` (source line 240) reads the knot array
at `k-1` and `n+1` with Python indexing and raises `IndexError` when either
is out of range (which happens for every parsed order `k < 0`); an
unhandled exception is modelled as `none`.  On the surviving path `k ≥ 1`,
so the order is a genuine natural number. -/
def B_spline_interact (P : List (ℚ × ℚ)) (pt : ℕ) (kin : OrderInput)
    (u : ℚ) : Option BSplineOutcome :=
  let Ps := P.take pt
  let n : ℤ := (Ps.length : ℤ) - 1
  let k : ℤ := parse_order kin
  if n + 1 < k then some (BSplineOutcome.errDegree k (n + 1))
  else if k = 0 then some BSplineOutcome.errOrderZero
  else if n + k + 1 < 0 then none
  else
    match pyIndex (non_periodic_knotI n k) (k - 1),
        pyIndex (non_periodic_knotI n k) (n + 1) with
    | some _, some _ =>
        some (BSplineOutcome.ok (non_periodic_knotI n k)
          (blending_func u (non_periodic_knotI n k) k.toNat)
          (B_spline (blending_func u (non_periodic_knotI n k) k.toNat)
            (non_periodic_knotI n k) Ps k.toNat))
    | _, _ => none

/-! ### Generic list helpers -/

theorem getD_map_range {α : Type} (dflt : α) (f : ℕ → α) (m i : ℕ)
    (h : i < m) : ((List.range m).map f).getD i dflt = f i := by
  simp [List.getD_eq_getElem?_getD, List.getElem?_map, List.getElem?_range, h]

theorem getD_of_length_le {α : Type} (dflt : α) (l : List α) (i : ℕ)
    (h : l.length ≤ i) : l.getD i dflt = dflt :=
  List.getD_eq_default _ _ h

theorem sum_map_range (f : ℕ → ℚ) (n : ℕ) :
    ((List.range n).map f).sum = ∑ i ∈ Finset.range n, f i := by
  induction n with
  | zero => simp
  | succ m ih => simp [List.range_succ, Finset.sum_range_succ, ih]

theorem foldl_add_pair (g h : ℕ → ℚ) (m : ℕ) (a b : ℚ) :
    (List.range m).foldl (fun acc i => (acc.1 + g i, acc.2 + h i)) (a, b) =
      (a + ∑ i ∈ Finset.range m, g i, b + ∑ i ∈ Finset.range m, h i) := by
  induction m generalizing a b with
  | zero => simp
  | succ m ih =>
      simp [List.range_succ, List.foldl_append, ih, Finset.sum_range_succ,
        add_assoc]

/-! ### Shape of the blending table -/

theorem blendRow_length (u : ℚ) (knots : List ℚ) (d : ℕ) :
    (blendRow u knots d).length = knots.length - d := by
  match d with
  | 0 => simp [blendRow]
  | 1 => simp [blendRow]
  | d + 2 => simp [blendRow, blendStep]

theorem blending_func_getD (u : ℚ) (knots : List ℚ) (k d : ℕ) (h : d ≤ k) :
    (blending_func u knots k).getD d [] = blendRow u knots d :=
  getD_map_range _ _ _ _ (Nat.lt_succ_of_le h)

theorem blendRow_one_getD (u : ℚ) (knots : List ℚ) (i : ℕ)
    (h : i < knots.length - 1) :
    (blendRow u knots 1).getD i 0 =
      if knots.getD i 0 ≤ u ∧ u < knots.getD (i + 1) 0 then 1 else 0 := by
  simp only [blendRow]
  exact getD_map_range _ _ _ _ h

theorem blendRow_step_getD (u : ℚ) (knots : List ℚ) (d i : ℕ)
    (h : i < knots.length - (d + 2)) :
    (blendRow u knots (d + 2)).getD i 0 =
      leftTerm u knots (d + 2) (blendRow u knots (d + 1)) i +
      rightTerm u knots (d + 2) (blendRow u knots (d + 1)) i := by
  simp only [blendRow, blendStep]
  exact getD_map_range _ _ _ _ h

theorem leftTerm_eq_zero (u : ℚ) (knots : List ℚ) (d : ℕ) (prev : List ℚ)
    (i : ℕ) (h : prev.getD i 0 = 0) : leftTerm u knots d prev i = 0 := by
  unfold leftTerm
  rw [h]
  split <;> simp

theorem rightTerm_eq_zero (u : ℚ) (knots : List ℚ) (d : ℕ) (prev : List ℚ)
    (i : ℕ) (h : prev.getD (i + 1) 0 = 0) : rightTerm u knots d prev i = 0 := by
  unfold rightTerm
  rw [h]
  split <;> simp

theorem blendRow_getD_of_length_le (u : ℚ) (knots : List ℚ) (d i : ℕ)
    (h : knots.length - d ≤ i) : (blendRow u knots d).getD i 0 = 0 :=
  getD_of_length_le _ _ _ (by rw [blendRow_length]; exact h)

/-! ### Support of the blending functions

For a non-decreasing knot vector, the level-`d` blending function `N[d][i]`
vanishes outside the half-open span `[knots[i], knots[i+d])`. -/

theorem blendRow_support (u : ℚ) (knots : List ℚ)
    (hmono : ∀ a b, a ≤ b → b < knots.length →
      knots.getD a 0 ≤ knots.getD b 0) :
    ∀ d, 1 ≤ d → ∀ i, i + d < knots.length →
      (u < knots.getD i 0 ∨ knots.getD (i + d) 0 ≤ u) →
      (blendRow u knots d).getD i 0 = 0 := by
  intro d hd
  induction d, hd using Nat.le_induction with
  | base =>
      intro i hi hcase
      rw [blendRow_one_getD u knots i (by omega), if_neg]
      rcases hcase with h | h
      · exact fun hc => absurd hc.1 (not_le.mpr h)
      · exact fun hc => absurd hc.2 (not_lt.mpr h)
  | succ d hd ih =>
      intro i hi hcase
      obtain ⟨e, rfl⟩ : ∃ e, d = e + 1 := ⟨d - 1, by omega⟩
      rw [blendRow_step_getD u knots e i (by omega)]
      have hfi : (blendRow u knots (e + 1)).getD i 0 = 0 := by
        apply ih i (by omega)
        rcases hcase with h | h
        · exact Or.inl h
        · refine Or.inr (le_trans ?_ h)
          exact hmono (i + (e + 1)) (i + (e + 2)) (by omega) (by omega)
      have hfi1 : (blendRow u knots (e + 1)).getD (i + 1) 0 = 0 := by
        have he2 : i + 1 + (e + 1) = i + (e + 2) := by omega
        apply ih (i + 1) (by omega)
        rw [he2]
        rcases hcase with h | h
        · refine Or.inl (lt_of_lt_of_le h ?_)
          exact hmono i (i + 1) (by omega) (by omega)
        · exact Or.inr h
      rw [leftTerm_eq_zero u knots (e + 2) _ i hfi,
        rightTerm_eq_zero u knots (e + 2) _ i hfi1, add_zero]

/-! ### Locating a sample inside a non-decreasing knot vector -/

theorem exists_knot_interval (u : ℚ) (knots : List ℚ)
    (h0 : knots.getD 0 0 ≤ u)
    (h1 : u < knots.getD (knots.length - 1) 0) :
    ∃ i, i < knots.length - 1 ∧ knots.getD i 0 ≤ u ∧
      u < knots.getD (i + 1) 0 := by
  have hlen : 2 ≤ knots.length := by
    by_contra hcon
    push_neg at hcon
    have h01 : knots.getD 0 0 < knots.getD (knots.length - 1) 0 :=
      lt_of_le_of_lt h0 h1
    have hz : knots.length - 1 = 0 := by omega
    rw [hz] at h01
    exact lt_irrefl _ h01
  classical
  set P : ℕ → Prop := fun j => knots.getD j 0 ≤ u with hP
  have hP0 : P 0 := h0
  set i := Nat.findGreatest P (knots.length - 2) with hi
  have hPi : P i := Nat.findGreatest_spec (Nat.zero_le _) hP0
  have hile : i ≤ knots.length - 2 := Nat.findGreatest_le _
  refine ⟨i, by omega, hPi, ?_⟩
  by_cases hcase : i + 1 ≤ knots.length - 2
  · by_contra hcon
    push_neg at hcon
    have : i + 1 ≤ i := Nat.le_findGreatest hcase hcon
    omega
  · have : i + 1 = knots.length - 1 := by omega
    rw [this]
    exact h1

theorem knot_interval_unique (u : ℚ) (knots : List ℚ)
    (hmono : ∀ a b, a ≤ b → b < knots.length →
      knots.getD a 0 ≤ knots.getD b 0)
    (i j : ℕ) (hi : i < knots.length - 1) (hj : j < knots.length - 1)
    (hui : knots.getD i 0 ≤ u ∧ u < knots.getD (i + 1) 0)
    (huj : knots.getD j 0 ≤ u ∧ u < knots.getD (j + 1) 0) : i = j := by
  rcases lt_trichotomy i j with h | h | h
  · have := hmono (i + 1) j (by omega) (by omega)
    linarith [hui.2, huj.1]
  · exact h
  · have := hmono (j + 1) i (by omega) (by omega)
    linarith [huj.2, hui.1]

/-! ### Partition of unity for the Cox–de Boor table -/

theorem left_add_right (u : ℚ) (knots : List ℚ)
    (hmono : ∀ a b, a ≤ b → b < knots.length →
      knots.getD a 0 ≤ knots.getD b 0)
    (e i : ℕ) (h : i + 1 + (e + 1) < knots.length) :
    leftTerm u knots (e + 2) (blendRow u knots (e + 1)) (i + 1) +
      rightTerm u knots (e + 2) (blendRow u knots (e + 1)) i =
    (blendRow u knots (e + 1)).getD (i + 1) 0 := by
  unfold leftTerm rightTerm
  simp only [show i + 1 + (e + 2) - 1 = i + (e + 2) from by omega]
  by_cases hden : knots.getD (i + (e + 2)) 0 - knots.getD (i + 1) 0 = 0
  · rw [if_pos hden, if_pos hden]
    have hsup : (blendRow u knots (e + 1)).getD (i + 1) 0 = 0 := by
      apply blendRow_support u knots hmono (e + 1) (by omega) (i + 1) (by omega)
      have heq : knots.getD (i + (e + 2)) 0 = knots.getD (i + 1) 0 := by
        linarith
      rcases le_or_lt (knots.getD (i + 1) 0) u with h1 | h1
      · refine Or.inr ?_
        rw [show i + 1 + (e + 1) = i + (e + 2) from by omega, heq]
        exact h1
      · exact Or.inl h1
    rw [hsup]
    ring
  · rw [if_neg hden, if_neg hden, div_add_div_same]
    have hcollect :
        (u - knots.getD (i + 1) 0) *
            (blendRow u knots (e + 1)).getD (i + 1) 0 +
          (knots.getD (i + (e + 2)) 0 - u) *
            (blendRow u knots (e + 1)).getD (i + 1) 0 =
        (knots.getD (i + (e + 2)) 0 - knots.getD (i + 1) 0) *
          (blendRow u knots (e + 1)).getD (i + 1) 0 := by
      ring
    rw [hcollect, mul_div_cancel_left₀ _ hden]

theorem blendRow_sum_one (u : ℚ) (knots : List ℚ)
    (hmono : ∀ a b, a ≤ b → b < knots.length →
      knots.getD a 0 ≤ knots.getD b 0) :
    ∀ d, 1 ≤ d → d < knots.length →
      knots.getD (d - 1) 0 ≤ u → u < knots.getD (knots.length - d) 0 →
      ∑ i ∈ Finset.range (knots.length - d),
        (blendRow u knots d).getD i 0 = 1 := by
  intro d hd
  induction d, hd using Nat.le_induction with
  | base =>
      intro hlen hl hr
      obtain ⟨i0, hi0, hu0⟩ := exists_knot_interval u knots hl hr
      rw [Finset.sum_eq_single i0]
      · rw [blendRow_one_getD u knots i0 hi0, if_pos hu0]
      · intro b hb hbne
        rw [blendRow_one_getD u knots b (Finset.mem_range.mp hb)]
        rw [if_neg]
        intro hub
        exact hbne (knot_interval_unique u knots hmono b i0
          (Finset.mem_range.mp hb) hi0 hub hu0)
      · intro hcon
        exact absurd (Finset.mem_range.mpr hi0) hcon
  | succ d hd ih =>
      intro hlen hl hr
      obtain ⟨e, rfl⟩ : ∃ e, d = e + 1 := ⟨d - 1, by omega⟩
      obtain ⟨m, hm⟩ : ∃ m, knots.length - (e + 2) = m + 1 :=
        ⟨knots.length - (e + 2) - 1, by omega⟩
      have hf0 : (blendRow u knots (e + 1)).getD 0 0 = 0 := by
        apply blendRow_support u knots hmono (e + 1) (by omega) 0 (by omega)
        exact Or.inr (by simpa using hl)
      have hfM : (blendRow u knots (e + 1)).getD (m + 1) 0 = 0 := by
        apply blendRow_support u knots hmono (e + 1) (by omega) (m + 1)
          (by omega)
        refine Or.inl ?_
        have : knots.length - (e + 2) = m + 1 := hm
        rw [← this]
        exact hr
      have hstep : ∀ i ∈ Finset.range (m + 1),
          (blendRow u knots (e + 2)).getD i 0 =
            leftTerm u knots (e + 2) (blendRow u knots (e + 1)) i +
            rightTerm u knots (e + 2) (blendRow u knots (e + 1)) i := by
        intro i hi
        exact blendRow_step_getD u knots e i
          (by have := Finset.mem_range.mp hi; omega)
      rw [hm, Finset.sum_congr rfl hstep, Finset.sum_add_distrib,
        Finset.sum_range_succ', Finset.sum_range_succ]
      rw [leftTerm_eq_zero u knots (e + 2) _ 0 hf0,
        rightTerm_eq_zero u knots (e + 2) _ m (by rwa [])]
      have hpair : ∀ i ∈ Finset.range m,
          leftTerm u knots (e + 2) (blendRow u knots (e + 1)) (i + 1) +
            rightTerm u knots (e + 2) (blendRow u knots (e + 1)) i =
          (blendRow u knots (e + 1)).getD (i + 1) 0 := by
        intro i hi
        exact left_add_right u knots hmono e i
          (by have := Finset.mem_range.mp hi; omega)
      have hIH : ∑ i ∈ Finset.range (knots.length - (e + 1)),
          (blendRow u knots (e + 1)).getD i 0 = 1 := by
        apply ih (by omega)
        · refine le_trans ?_ hl
          exact hmono (e + 1 - 1) (e + 2 - 1) (by omega) (by omega)
        · refine lt_of_lt_of_le hr ?_
          exact hmono (knots.length - (e + 2)) (knots.length - (e + 1))
            (by omega) (by omega)
      have hm2 : knots.length - (e + 1) = m + 1 + 1 := by omega
      rw [hm2, Finset.sum_range_succ, Finset.sum_range_succ', hf0, hfM,
        add_zero, add_zero] at hIH
      calc (∑ i ∈ Finset.range m,
              leftTerm u knots (e + 2) (blendRow u knots (e + 1)) (i + 1)) + 0 +
            ((∑ i ∈ Finset.range m,
              rightTerm u knots (e + 2) (blendRow u knots (e + 1)) i) + 0)
          = ∑ i ∈ Finset.range m,
              (leftTerm u knots (e + 2) (blendRow u knots (e + 1)) (i + 1) +
               rightTerm u knots (e + 2) (blendRow u knots (e + 1)) i) := by
            rw [add_zero, add_zero, Finset.sum_add_distrib]
        _ = ∑ i ∈ Finset.range m,
              (blendRow u knots (e + 1)).getD (i + 1) 0 :=
            Finset.sum_congr rfl hpair
        _ = 1 := hIH

/-! ### The clamped knot vector -/

theorem non_periodic_knot_length (n k : ℕ) :
    (non_periodic_knot n k).length = n + k + 1 := by
  simp [non_periodic_knot]

theorem non_periodic_knot_getD (n k i : ℕ) (h : i < n + k + 1) :
    (non_periodic_knot n k).getD i 0 = knotVal n k i :=
  getD_map_range _ _ _ _ h

theorem knotVal_mono (n k i j : ℕ) (hk : k ≤ n + 2) (hij : i ≤ j) :
    knotVal n k i ≤ knotVal n k j := by
  have hkq : (k : ℚ) ≤ (n : ℚ) + 2 := by exact_mod_cast hk
  have hijq : (i : ℚ) ≤ (j : ℚ) := by exact_mod_cast hij
  unfold knotVal
  by_cases h1 : i < k
  · rw [if_pos h1]
    by_cases h2 : j < k
    · rw [if_pos h2]
    · rw [if_neg h2]
      have h2q : (k : ℚ) ≤ (j : ℚ) := by
        exact_mod_cast Nat.le_of_not_lt h2
      by_cases h3 : j ≤ n
      · rw [if_pos h3]
        linarith
      · rw [if_neg h3]
        linarith
  · rw [if_neg h1]
    have h1j : ¬ j < k := fun hc => h1 (lt_of_le_of_lt hij hc)
    rw [if_neg h1j]
    by_cases h2 : i ≤ n
    · rw [if_pos h2]
      have h2q : (i : ℚ) ≤ (n : ℚ) := by exact_mod_cast h2
      by_cases h3 : j ≤ n
      · rw [if_pos h3]
        linarith
      · rw [if_neg h3]
        linarith
    · rw [if_neg h2]
      have h3 : ¬ j ≤ n := fun hc => h2 (le_trans hij hc)
      rw [if_neg h3]

theorem non_periodic_knot_mono (n k : ℕ) (hk : k ≤ n + 2) :
    ∀ a b, a ≤ b → b < (non_periodic_knot n k).length →
      (non_periodic_knot n k).getD a 0 ≤ (non_periodic_knot n k).getD b 0 := by
  intro a b hab hb
  rw [non_periodic_knot_length] at hb
  rw [non_periodic_knot_getD n k a (by omega), non_periodic_knot_getD n k b hb]
  exact knotVal_mono n k a b hk hab

/-! ### Sums of list entries and evaluation folds -/

theorem list_sum_eq_sum_getD (l : List ℚ) :
    l.sum = ∑ i ∈ Finset.range l.length, l.getD i 0 := by
  induction l with
  | nil => simp
  | cons a t ih =>
      rw [List.sum_cons, List.length_cons, Finset.sum_range_succ', ih]
      simp [List.getD_cons_succ, List.getD_cons_zero, add_comm]

theorem bezier_fold (n m : ℕ) (u : ℚ) (P : List (ℚ × ℚ)) :
    (List.range m).foldl
      (fun acc i =>
        (acc.1 ++ [bernstein n i u],
         acc.2.1 + bernstein n i u * (P.getD i (0, 0)).1,
         acc.2.2 + bernstein n i u * (P.getD i (0, 0)).2))
      ([], 0, 0) =
    ((List.range m).map (fun i => bernstein n i u),
     ∑ i ∈ Finset.range m, bernstein n i u * (P.getD i (0, 0)).1,
     ∑ i ∈ Finset.range m, bernstein n i u * (P.getD i (0, 0)).2) := by
  induction m with
  | zero => simp
  | succ m ih =>
      rw [List.range_succ, List.foldl_append, ih]
      simp [List.range_succ, Finset.sum_range_succ]

theorem bezier_loop_eq (P : List (ℚ × ℚ)) (u : ℚ) :
    bezier_loop P u =
      ((List.range (P.length - 1 + 1)).map
        (fun i => bernstein (P.length - 1) i u),
       ∑ i ∈ Finset.range (P.length - 1 + 1),
         bernstein (P.length - 1) i u * (P.getD i (0, 0)).1,
       ∑ i ∈ Finset.range (P.length - 1 + 1),
         bernstein (P.length - 1) i u * (P.getD i (0, 0)).2) :=
  bezier_fold _ _ _ _

theorem B_spline_eq (N : List (List ℚ)) (knots : List ℚ)
    (P : List (ℚ × ℚ)) (k : ℕ) :
    B_spline N knots P k =
      (∑ i ∈ Finset.range (knots.length - k),
         (N.getD k []).getD i 0 * (P.getD i (0, 0)).1,
       ∑ i ∈ Finset.range (knots.length - k),
         (N.getD k []).getD i 0 * (P.getD i (0, 0)).2) := by
  unfold B_spline
  rw [foldl_add_pair]
  simp

/-! ### Python indexing and the integer-argument knot vector -/

theorem pyIndex_some (l : List ℚ) (i : ℤ) (h0 : 0 ≤ i)
    (h1 : i < (l.length : ℤ)) : pyIndex l i = some (l.getD i.toNat 0) := by
  unfold pyIndex
  rw [if_pos h0, if_pos h1]

theorem pyIndex_none_of_ge (l : List ℚ) (i : ℤ) (h0 : 0 ≤ i)
    (h1 : (l.length : ℤ) ≤ i) : pyIndex l i = none := by
  unfold pyIndex
  rw [if_pos h0, if_neg (not_lt.mpr h1)]

theorem non_periodic_knotI_length (n k : ℤ) :
    (non_periodic_knotI n k).length = (n + k + 1).toNat := by
  rw [non_periodic_knotI, List.length_map, List.length_range]

/-- On the documented domain (natural `n` and `k`) the integer-argument
embedding of `non_periodic_knot` agrees with the natural-number one. -/
theorem non_periodic_knotI_natCast (n k : ℕ) :
    non_periodic_knotI (n : ℤ) (k : ℤ) = non_periodic_knot n k := by
  unfold non_periodic_knotI non_periodic_knot
  rw [show ((n : ℤ) + k + 1).toNat = n + k + 1 from by omega]
  refine List.map_congr_left (fun i hi => ?_)
  have hi' : i < n + k + 1 := List.mem_range.mp hi
  unfold knotValI knotVal
  have h0 : (0 : ℤ) ≤ (i : ℤ) := Int.ofNat_nonneg i
  by_cases h1 : i < k
  · rw [if_pos ⟨h0, by exact_mod_cast h1⟩, if_pos h1]
  · rw [if_neg (fun hc => h1 (by exact_mod_cast hc.2)), if_neg h1]
    by_cases h2 : i ≤ n
    · rw [if_pos ⟨by exact_mod_cast Nat.le_of_not_lt h1,
        by exact_mod_cast h2⟩, if_pos h2]
      push_cast
      ring
    · have hn2 : ¬ ((k : ℤ) ≤ (i : ℤ) ∧ (i : ℤ) ≤ (n : ℤ)) := by
        intro hc
        exact h2 (by exact_mod_cast hc.2)
      have hp3 : (n : ℤ) < (i : ℤ) ∧ (i : ℤ) ≤ (n : ℤ) + (k : ℤ) := by
        constructor
        · exact_mod_cast Nat.lt_of_not_le h2
        · exact_mod_cast (by omega : i ≤ n + k)
      rw [if_neg h2, if_neg hn2, if_pos hp3]
      push_cast
      ring

/-! ### The claims -/

/-- C1: for every knot vector, every table level `d ≥ 2` of the table built
with order `k`, every basis index `i` at that level, and every sample `u`,
the Cox–de Boor table entry equals `term_left + term_right`, where
`term_left` is `0` if `knots[i+d-1] - knots[i] == 0` and otherwise
`(u - knots[i]) * table[d-1][i] / (knots[i+d-1] - knots[i])`, and
`term_right` is `0` if `knots[i+d] - knots[i+1] == 0` and otherwise
`(knots[i+d] - u) * table[d-1][i+1] / (knots[i+d] - knots[i+1])`; a zero
denominator yields a zero term for that half (the embedding is total, so no
fault occurs). -/
theorem claim_C1 (u : ℚ) (knots : List ℚ) (k d i : ℕ) (hd : 2 ≤ d)
    (hk : d ≤ k) (hi : i < knots.length - d) :
    ((blending_func u knots k).getD d []).getD i 0 =
      (if knots.getD (i + d - 1) 0 - knots.getD i 0 = 0 then 0
       else (u - knots.getD i 0) *
           ((blending_func u knots k).getD (d - 1) []).getD i 0 /
         (knots.getD (i + d - 1) 0 - knots.getD i 0)) +
      (if knots.getD (i + d) 0 - knots.getD (i + 1) 0 = 0 then 0
       else (knots.getD (i + d) 0 - u) *
           ((blending_func u knots k).getD (d - 1) []).getD (i + 1) 0 /
         (knots.getD (i + d) 0 - knots.getD (i + 1) 0)) := by
  obtain ⟨e, rfl⟩ : ∃ e, d = e + 2 := ⟨d - 2, by omega⟩
  rw [blending_func_getD u knots k (e + 2) hk,
    blending_func_getD u knots k (e + 2 - 1) (by omega),
    show e + 2 - 1 = e + 1 from by omega,
    blendRow_step_getD u knots e i hi]
  unfold leftTerm rightTerm
  rfl

/-- Witness for C1 at `u = 3/2`, `knots = [0,0,1,2,3,3]`, `k = d = 2`,
`i = 2`. -/
theorem claim_C1_witness :
    (2 ≤ 2 ∧ 2 ≤ 2 ∧ 2 < ([(0 : ℚ), 0, 1, 2, 3, 3].length - 2)) ∧
    ((blending_func (3/2) [(0 : ℚ), 0, 1, 2, 3, 3] 2).getD 2 []).getD 2 0 =
      (if [(0 : ℚ), 0, 1, 2, 3, 3].getD (2 + 2 - 1) 0 -
          [(0 : ℚ), 0, 1, 2, 3, 3].getD 2 0 = 0 then 0
       else ((3/2 : ℚ) - [(0 : ℚ), 0, 1, 2, 3, 3].getD 2 0) *
           ((blending_func (3/2) [(0 : ℚ), 0, 1, 2, 3, 3] 2).getD (2 - 1)
             []).getD 2 0 /
         ([(0 : ℚ), 0, 1, 2, 3, 3].getD (2 + 2 - 1) 0 -
          [(0 : ℚ), 0, 1, 2, 3, 3].getD 2 0)) +
      (if [(0 : ℚ), 0, 1, 2, 3, 3].getD (2 + 2) 0 -
          [(0 : ℚ), 0, 1, 2, 3, 3].getD (2 + 1) 0 = 0 then 0
       else ([(0 : ℚ), 0, 1, 2, 3, 3].getD (2 + 2) 0 - (3/2 : ℚ)) *
           ((blending_func (3/2) [(0 : ℚ), 0, 1, 2, 3, 3] 2).getD (2 - 1)
             []).getD (2 + 1) 0 /
         ([(0 : ℚ), 0, 1, 2, 3, 3].getD (2 + 2) 0 -
          [(0 : ℚ), 0, 1, 2, 3, 3].getD (2 + 1) 0)) :=
  ⟨⟨le_refl 2, le_refl 2, by norm_num⟩,
    claim_C1 (3/2) [(0 : ℚ), 0, 1, 2, 3, 3] 2 2 2 (le_refl 2) (le_refl 2)
      (by norm_num)⟩

/-- C2, counterexample: the claim quantifies over every `n ≥ 0` and `k ≥ 1`,
but at `n = 0`, `k = 3` the code produces `[0, 0, 0, -1]`, which is not
non-decreasing and whose last `k` entries are not all `n - k + 2 = -1`. -/
theorem claim_C2_counterexample :
    ¬ ((non_periodic_knot 0 3).length = 0 + 3 + 1 ∧
       (non_periodic_knot 0 3).Sorted (· ≤ ·) ∧
       (∀ i, i < 3 → (non_periodic_knot 0 3).getD i 0 = 0) ∧
       (∀ i, 0 + 1 ≤ i → i < 0 + 3 + 1 →
         (non_periodic_knot 0 3).getD i 0 = (0 : ℚ) - 3 + 2) ∧
       (∀ i, 3 ≤ i → i ≤ 0 → (non_periodic_knot 0 3).getD i 0 =
         (i : ℚ) - 3 + 1)) := by
  intro h
  have hs := h.2.1
  rw [show non_periodic_knot 0 3 = [0, 0, 0, -1] from by
    norm_num [non_periodic_knot, knotVal, List.range_succ]] at hs
  norm_num [List.Sorted] at hs

/-- C2, amended: for every `n ≥ 0` and every `k` with `1 ≤ k ≤ n + 2`
(rather than every `k ≥ 1`), `non_periodic_knot n k` has length `n+k+1`, is
non-decreasing, its first `k` entries are `0`, its last `k` entries are
`n - k + 2`, and its interior entries are `knot[i] = i - k + 1` for
`k ≤ i ≤ n`.  For `k ≥ n + 3` the code produces a decreasing tail. -/
theorem claim_C2 (n k : ℕ) (hk1 : 1 ≤ k) (hk2 : k ≤ n + 2) :
    (non_periodic_knot n k).length = n + k + 1 ∧
    (non_periodic_knot n k).Sorted (· ≤ ·) ∧
    (∀ i, i < k → (non_periodic_knot n k).getD i 0 = 0) ∧
    (∀ i, n + 1 ≤ i → i < n + k + 1 →
      (non_periodic_knot n k).getD i 0 = (n : ℚ) - k + 2) ∧
    (∀ i, k ≤ i → i ≤ n → (non_periodic_knot n k).getD i 0 =
      (i : ℚ) - k + 1) := by
  refine ⟨non_periodic_knot_length n k, ?_, ?_, ?_, ?_⟩
  · rw [List.Sorted, List.pairwise_iff_getElem]
    intro a b ha hb hab
    have hga : (non_periodic_knot n k)[a] = (non_periodic_knot n k).getD a 0 :=
      (List.getD_eq_getElem _ _ _).symm
    have hgb : (non_periodic_knot n k)[b] = (non_periodic_knot n k).getD b 0 :=
      (List.getD_eq_getElem _ _ _).symm
    rw [hga, hgb]
    exact non_periodic_knot_mono n k hk2 a b (le_of_lt hab) hb
  · intro i hik
    have hi : i < n + k + 1 := by omega
    rw [non_periodic_knot_getD n k i hi]
    unfold knotVal
    rw [if_pos hik]
  · intro i hi1 hi2
    rw [non_periodic_knot_getD n k i hi2]
    unfold knotVal
    by_cases h1 : i < k
    · rw [if_pos h1]
      have hkn : k = n + 2 := by omega
      subst hkn
      push_cast
      ring
    · rw [if_neg h1, if_neg (by omega)]
  · intro i hi1 hi2
    rw [non_periodic_knot_getD n k i (by omega)]
    unfold knotVal
    rw [if_neg (by omega), if_pos hi2]

/-- Witness for C2 at `n = 3`, `k = 2`. -/
theorem claim_C2_witness :
    (1 ≤ 2 ∧ 2 ≤ 3 + 2) ∧
    ((non_periodic_knot 3 2).length = 3 + 2 + 1 ∧
     (non_periodic_knot 3 2).Sorted (· ≤ ·) ∧
     (∀ i, i < 2 → (non_periodic_knot 3 2).getD i 0 = 0) ∧
     (∀ i, 3 + 1 ≤ i → i < 3 + 2 + 1 →
       (non_periodic_knot 3 2).getD i 0 = (3 : ℚ) - 2 + 2) ∧
     (∀ i, 2 ≤ i → i ≤ 3 → (non_periodic_knot 3 2).getD i 0 =
       (i : ℚ) - 2 + 1)) :=
  ⟨⟨by norm_num, by norm_num⟩, claim_C2 3 2 (by norm_num) (by norm_num)⟩

/-- C3: for every valid order `k` with `1 ≤ k ≤ n+1` and samples in the
valid domain (`[0,1)` for Bézier, `[knots[k-1], knots[n+1])` for the clamped
B-spline), the degree-`(k-1)` basis values sum to `1`, for both the
Bernstein basis and the clamped B-spline basis produced by
`blending_func`. -/
theorem claim_C3 (n k : ℕ) (u v : ℚ) (hk1 : 1 ≤ k) (hk2 : k ≤ n + 1)
    (hu0 : 0 ≤ u) (hu1 : u < 1)
    (hv0 : (non_periodic_knot n k).getD (k - 1) 0 ≤ v)
    (hv1 : v < (non_periodic_knot n k).getD (n + 1) 0) :
    ∑ i ∈ Finset.range (n + 1), bernstein n i u = 1 ∧
    ((blending_func v (non_periodic_knot n k) k).getD k []).sum = 1 := by
  constructor
  · calc ∑ i ∈ Finset.range (n + 1), bernstein n i u
        = ∑ i ∈ Finset.range (n + 1),
            u ^ i * (1 - u) ^ (n - i) * (n.choose i : ℚ) :=
          Finset.sum_congr rfl (fun i _ => by unfold bernstein; ring)
      _ = (u + (1 - u)) ^ n := (add_pow u (1 - u) n).symm
      _ = 1 := by norm_num
  · rw [blending_func_getD v (non_periodic_knot n k) k k (le_refl k),
      list_sum_eq_sum_getD, blendRow_length]
    apply blendRow_sum_one v (non_periodic_knot n k)
      (non_periodic_knot_mono n k (by omega)) k hk1
    · rw [non_periodic_knot_length]
      omega
    · exact hv0
    · rw [non_periodic_knot_length,
        show n + k + 1 - k = n + 1 from by omega]
      exact hv1

/-- Witness for C3 at `n = 1`, `k = 2`, `u = 1/3`, `v = 1/2`
(knot vector `[0, 0, 1, 1]`). -/
theorem claim_C3_witness :
    (1 ≤ 2 ∧ 2 ≤ 1 + 1 ∧ (0 : ℚ) ≤ 1/3 ∧ (1/3 : ℚ) < 1 ∧
     (non_periodic_knot 1 2).getD (2 - 1) 0 ≤ 1/2 ∧
     (1/2 : ℚ) < (non_periodic_knot 1 2).getD (1 + 1) 0) ∧
    (∑ i ∈ Finset.range (1 + 1), bernstein 1 i (1/3) = 1 ∧
     ((blending_func (1/2) (non_periodic_knot 1 2) 2).getD 2 []).sum = 1) := by
  have h5 : (non_periodic_knot 1 2).getD (2 - 1) 0 ≤ (1/2 : ℚ) := by
    norm_num [non_periodic_knot, knotVal, List.range_succ, List.getD]
  have h6 : (1/2 : ℚ) < (non_periodic_knot 1 2).getD (1 + 1) 0 := by
    norm_num [non_periodic_knot, knotVal, List.range_succ, List.getD]
  exact ⟨⟨by norm_num, by norm_num, by norm_num, by norm_num, h5, h6⟩,
    claim_C3 1 2 (1/3) (1/2) (by norm_num) (by norm_num) (by norm_num)
      (by norm_num) h5 h6⟩

/-- C4: with `m` basis functions and `m` control points, the evaluated curve
point at a sample equals `P(u) = Σ_i basis_i(u) · control_point_i`
componentwise: `B_spline` sums `N[k][i] * P_i[:,i]` over
`i = 0 .. len(knots)-k-1`, and the Bézier loop sums `Bi[i] * P_i[:,i]` over
`i = 0 .. n`. -/
theorem claim_C4 (u : ℚ) (knots : List ℚ) (P : List (ℚ × ℚ)) (k : ℕ)
    (hm : P.length = knots.length - k)
    (Q : List (ℚ × ℚ)) (v : ℚ) (hq : 1 ≤ Q.length) :
    B_spline (blending_func u knots k) knots P k =
      (∑ i ∈ Finset.range (knots.length - k),
         ((blending_func u knots k).getD k []).getD i 0 * (P.getD i (0, 0)).1,
       ∑ i ∈ Finset.range (knots.length - k),
         ((blending_func u knots k).getD k []).getD i 0 *
           (P.getD i (0, 0)).2) ∧
    (bezier_loop Q v).2 =
      (∑ i ∈ Finset.range (Q.length - 1 + 1),
         bernstein (Q.length - 1) i v * (Q.getD i (0, 0)).1,
       ∑ i ∈ Finset.range (Q.length - 1 + 1),
         bernstein (Q.length - 1) i v * (Q.getD i (0, 0)).2) := by
  constructor
  · exact B_spline_eq (blending_func u knots k) knots P k
  · rw [bezier_loop_eq]

/-- Witness for C4 at `knots = [0,0,1,1]`, `k = 2`, two control points, and a
two-point Bézier configuration. -/
theorem claim_C4_witness :
    (([((1 : ℚ), (2 : ℚ)), (3, 4)].length =
        [(0 : ℚ), 0, 1, 1].length - 2) ∧
     1 ≤ [((0 : ℚ), (0 : ℚ)), (1, 2)].length) ∧
    (B_spline (blending_func (1/2) [(0 : ℚ), 0, 1, 1] 2)
        [(0 : ℚ), 0, 1, 1] [((1 : ℚ), (2 : ℚ)), (3, 4)] 2 =
      (∑ i ∈ Finset.range ([(0 : ℚ), 0, 1, 1].length - 2),
         ((blending_func (1/2) [(0 : ℚ), 0, 1, 1] 2).getD 2 []).getD i 0 *
           ([((1 : ℚ), (2 : ℚ)), (3, 4)].getD i (0, 0)).1,
       ∑ i ∈ Finset.range ([(0 : ℚ), 0, 1, 1].length - 2),
         ((blending_func (1/2) [(0 : ℚ), 0, 1, 1] 2).getD 2 []).getD i 0 *
           ([((1 : ℚ), (2 : ℚ)), (3, 4)].getD i (0, 0)).2) ∧
     (bezier_loop [((0 : ℚ), (0 : ℚ)), (1, 2)] (1/2)).2 =
       (∑ i ∈ Finset.range ([((0 : ℚ), (0 : ℚ)), (1, 2)].length - 1 + 1),
          bernstein ([((0 : ℚ), (0 : ℚ)), (1, 2)].length - 1) i (1/2) *
            ([((0 : ℚ), (0 : ℚ)), (1, 2)].getD i (0, 0)).1,
        ∑ i ∈ Finset.range ([((0 : ℚ), (0 : ℚ)), (1, 2)].length - 1 + 1),
          bernstein ([((0 : ℚ), (0 : ℚ)), (1, 2)].length - 1) i (1/2) *
            ([((0 : ℚ), (0 : ℚ)), (1, 2)].getD i (0, 0)).2)) :=
  ⟨⟨by norm_num, by norm_num⟩,
    claim_C4 (1/2) [(0 : ℚ), 0, 1, 1] [((1 : ℚ), (2 : ℚ)), (3, 4)] 2
      (by norm_num) [((0 : ℚ), (0 : ℚ)), (1, 2)] (1/2) (by norm_num)⟩

/-- C5: for `n+1` selected control points, the Bézier basis function `i`
built by the Bézier path equals `C(n,i) · u^i · (1−u)^(n−i)` with the
standard binomial coefficient, computed directly (the definition of the
Bézier loop never consults the Cox–de Boor table). -/
theorem claim_C5 (Q : List (ℚ × ℚ)) (pt : ℕ) (u : ℚ) (i : ℕ)
    (hi : i < (Q.take pt).length - 1 + 1) :
    ((bezier_poly_interact Q pt u).1).getD i 0 =
      ((((Q.take pt).length - 1).choose i : ℚ) * u ^ i *
        (1 - u) ^ ((Q.take pt).length - 1 - i)) := by
  unfold bezier_poly_interact
  rw [bezier_loop_eq]
  exact getD_map_range _ _ _ _ hi

/-- Witness for C5 with four control points, `pt = 4`, `u = 1/2`, `i = 1`. -/
theorem claim_C5_witness :
    (1 < ([((-2 : ℚ), (0 : ℚ)), (-1, 2), (3, 2), (4, 0)].take 4).length
        - 1 + 1) ∧
    ((bezier_poly_interact [((-2 : ℚ), (0 : ℚ)), (-1, 2), (3, 2), (4, 0)] 4
        (1/2)).1).getD 1 0 =
      (((([((-2 : ℚ), (0 : ℚ)), (-1, 2), (3, 2), (4, 0)].take 4).length -
          1).choose 1 : ℚ) * (1/2 : ℚ) ^ 1 *
        (1 - (1/2 : ℚ)) ^
          (([((-2 : ℚ), (0 : ℚ)), (-1, 2), (3, 2), (4, 0)].take 4).length -
            1 - 1)) :=
  ⟨by norm_num,
    claim_C5 [((-2 : ℚ), (0 : ℚ)), (-1, 2), (3, 2), (4, 0)] 4 (1/2) 1
      (by norm_num)⟩

/-- C6: for every sample `u` and index `i` in range, the degree-1 table row
entry `table[1][i]` equals `1` exactly when `knots[i] ≤ u < knots[i+1]` and
`0` otherwise; consequently, for a (non-decreasing, per the KnotVector data
model) knot vector there is at most one index with value `1`, and exactly
one when `u` lies in `[knots[0], knots[last])`. -/
theorem claim_C6 (u : ℚ) (knots : List ℚ) (k : ℕ) (hk : 1 ≤ k)
    (hmono : ∀ a b, a ≤ b → b < knots.length →
      knots.getD a 0 ≤ knots.getD b 0) :
    (∀ i, i < knots.length - 1 →
      ((blending_func u knots k).getD 1 []).getD i 0 =
        if knots.getD i 0 ≤ u ∧ u < knots.getD (i + 1) 0 then 1 else 0) ∧
    (∀ i j, i < knots.length - 1 → j < knots.length - 1 →
      ((blending_func u knots k).getD 1 []).getD i 0 = 1 →
      ((blending_func u knots k).getD 1 []).getD j 0 = 1 → i = j) ∧
    (knots.getD 0 0 ≤ u → u < knots.getD (knots.length - 1) 0 →
      ∃ i, i < knots.length - 1 ∧
        ((blending_func u knots k).getD 1 []).getD i 0 = 1) := by
  rw [blending_func_getD u knots k 1 hk]
  have hone : ∀ i, i < knots.length - 1 →
      ((blendRow u knots 1).getD i 0 = 1 ↔
        knots.getD i 0 ≤ u ∧ u < knots.getD (i + 1) 0) := by
    intro i hi
    rw [blendRow_one_getD u knots i hi]
    constructor
    · intro h1
      by_contra hc
      rw [if_neg hc] at h1
      norm_num at h1
    · intro hc
      rw [if_pos hc]
  refine ⟨fun i hi => blendRow_one_getD u knots i hi, ?_, ?_⟩
  · intro i j hi hj h1i h1j
    exact knot_interval_unique u knots hmono i j hi hj
      ((hone i hi).mp h1i) ((hone j hj).mp h1j)
  · intro h0 hlast
    obtain ⟨i, hi, hint⟩ := exists_knot_interval u knots h0 hlast
    exact ⟨i, hi, (hone i hi).mpr hint⟩

/-- Witness for C6 at `u = 3/2`, `knots = [0,0,1,2,3,3]`, `k = 2` (the
degree-1 row is `1` exactly at index 2). -/
theorem claim_C6_witness :
    (1 ≤ 2 ∧
     (∀ a b, a ≤ b → b < [(0 : ℚ), 0, 1, 2, 3, 3].length →
       [(0 : ℚ), 0, 1, 2, 3, 3].getD a 0 ≤
         [(0 : ℚ), 0, 1, 2, 3, 3].getD b 0)) ∧
    ((∀ i, i < [(0 : ℚ), 0, 1, 2, 3, 3].length - 1 →
      ((blending_func (3/2) [(0 : ℚ), 0, 1, 2, 3, 3] 2).getD 1 []).getD i 0 =
        if [(0 : ℚ), 0, 1, 2, 3, 3].getD i 0 ≤ 3/2 ∧
            (3/2 : ℚ) < [(0 : ℚ), 0, 1, 2, 3, 3].getD (i + 1) 0
          then 1 else 0) ∧
    (∀ i j, i < [(0 : ℚ), 0, 1, 2, 3, 3].length - 1 →
      j < [(0 : ℚ), 0, 1, 2, 3, 3].length - 1 →
      ((blending_func (3/2) [(0 : ℚ), 0, 1, 2, 3, 3] 2).getD 1
        []).getD i 0 = 1 →
      ((blending_func (3/2) [(0 : ℚ), 0, 1, 2, 3, 3] 2).getD 1
        []).getD j 0 = 1 → i = j) ∧
    ([(0 : ℚ), 0, 1, 2, 3, 3].getD 0 0 ≤ 3/2 →
      (3/2 : ℚ) < [(0 : ℚ), 0, 1, 2, 3, 3].getD
        ([(0 : ℚ), 0, 1, 2, 3, 3].length - 1) 0 →
      ∃ i, i < [(0 : ℚ), 0, 1, 2, 3, 3].length - 1 ∧
        ((blending_func (3/2) [(0 : ℚ), 0, 1, 2, 3, 3] 2).getD 1
          []).getD i 0 = 1)) := by
  have hmono : ∀ a b, a ≤ b → b < [(0 : ℚ), 0, 1, 2, 3, 3].length →
      [(0 : ℚ), 0, 1, 2, 3, 3].getD a 0 ≤
        [(0 : ℚ), 0, 1, 2, 3, 3].getD b 0 := by
    intro a b hab hb
    simp only [List.length_cons, List.length_nil] at hb
    interval_cases b <;> interval_cases a <;> norm_num [List.getD]
  exact ⟨⟨by norm_num, hmono⟩,
    claim_C6 (3/2) [(0 : ℚ), 0, 1, 2, 3, 3] 2 (by norm_num) hmono⟩

/-- C7, counterexample: the claim asserts that whenever neither `k > n+1`
nor `k == 0` holds, evaluation proceeds (a computed result, with soft
failures only in the two rejected cases).  But a negative parsed order —
reachable, since the widget value is coerced with `int(k)` — passes both
checks and then raises an unhandled `IndexError` on source line 240
(`u_i[k-1]` / `u_i[n+1]`): at `k = -1` with two control points no
diagnostic is printed and no knot vector, table or curve is produced. -/
theorem claim_C7_counterexample :
    parse_order (OrderInput.num (-1)) ≤
        ((([((0 : ℚ), (0 : ℚ)), (1, 1)].take 2).length : ℤ) - 1) + 1 ∧
    parse_order (OrderInput.num (-1)) ≠ 0 ∧
    B_spline_interact [((0 : ℚ), (0 : ℚ)), (1, 1)] 2 (OrderInput.num (-1)) 0
      = none := by
  refine ⟨by norm_num [parse_order], by norm_num [parse_order], ?_⟩
  rfl

/-- C7, amended: on the B-spline path, if `k > n+1` the degree-too-high
diagnostic is produced and nothing is computed; if `k == 0` the
order-must-be-positive diagnostic is produced and nothing is computed; if
`1 ≤ k ≤ n+1` evaluation proceeds and produces knots, table and curve
point; for a negative parsed order, however, the path raises an unhandled
exception (`IndexError`/`ValueError`, modelled as `none`) rather than a
diagnostic or a result.  The two rejections are soft, user-facing outcome
values, not exceptions, and the Bézier path performs no equivalent
validation: it unconditionally computes a full basis row. -/
theorem claim_C7 (P : List (ℚ × ℚ)) (pt : ℕ) (kin : OrderInput) (u : ℚ) :
    ((((P.take pt).length : ℤ) - 1) + 1 < parse_order kin →
      B_spline_interact P pt kin u =
        some (BSplineOutcome.errDegree (parse_order kin)
          ((((P.take pt).length : ℤ) - 1) + 1))) ∧
    (parse_order kin ≤ (((P.take pt).length : ℤ) - 1) + 1 →
      parse_order kin = 0 →
      B_spline_interact P pt kin u = some BSplineOutcome.errOrderZero) ∧
    (parse_order kin ≤ (((P.take pt).length : ℤ) - 1) + 1 →
      1 ≤ parse_order kin →
      ∃ kn N p, B_spline_interact P pt kin u =
        some (BSplineOutcome.ok kn N p)) ∧
    (parse_order kin < 0 → B_spline_interact P pt kin u = none) ∧
    (∀ v, ((bezier_poly_interact P pt v).1).length =
      (P.take pt).length - 1 + 1) := by
  have hL : (0 : ℤ) ≤ ((P.take pt).length : ℤ) := Int.ofNat_nonneg _
  refine ⟨?_, ?_, ?_, ?_, ?_⟩
  · intro h
    unfold B_spline_interact
    rw [if_pos h]
  · intro h1 h2
    unfold B_spline_interact
    rw [if_neg (not_lt.mpr h1), if_pos h2]
  · intro h1 hk1
    unfold B_spline_interact
    rw [if_neg (not_lt.mpr h1), if_neg (by omega : ¬ parse_order kin = 0),
      if_neg (not_lt.mpr (by omega :
        (0 : ℤ) ≤ ((P.take pt).length : ℤ) - 1 + parse_order kin + 1))]
    have hlen : ((non_periodic_knotI (((P.take pt).length : ℤ) - 1)
        (parse_order kin)).length : ℤ) =
        ((P.take pt).length : ℤ) - 1 + parse_order kin + 1 := by
      rw [non_periodic_knotI_length]
      omega
    rw [pyIndex_some _ _ (by omega) (by rw [hlen]; omega),
      pyIndex_some _ _ (by omega) (by rw [hlen]; omega)]
    exact ⟨_, _, _, rfl⟩
  · intro hneg
    unfold B_spline_interact
    rw [if_neg (not_lt.mpr (by omega :
        parse_order kin ≤ ((P.take pt).length : ℤ) - 1 + 1)),
      if_neg (by omega : ¬ parse_order kin = 0)]
    by_cases hz : ((P.take pt).length : ℤ) - 1 + parse_order kin + 1 < 0
    · rw [if_pos hz]
    · rw [if_neg hz]
      have hlen : ((non_periodic_knotI (((P.take pt).length : ℤ) - 1)
          (parse_order kin)).length : ℤ) =
          ((P.take pt).length : ℤ) - 1 + parse_order kin + 1 := by
        rw [non_periodic_knotI_length]
        omega
      rw [pyIndex_none_of_ge _ (((P.take pt).length : ℤ) - 1 + 1)
        (by omega) (by rw [hlen]; omega)]
      cases hpc : pyIndex (non_periodic_knotI (((P.take pt).length : ℤ) - 1)
        (parse_order kin)) (parse_order kin - 1) <;> rfl
  · intro v
    unfold bezier_poly_interact
    rw [bezier_loop_eq]
    simp

/-- Witness for C7: with four control points, order 5 is rejected with the
degree diagnostic, order 0 with the positivity diagnostic, order 2
evaluates, and order -1 hits the collapsed exception path. -/
theorem claim_C7_witness :
    (B_spline_interact [((-2 : ℚ), (0 : ℚ)), (-1, 2), (3, 2), (4, 0)] 4
        (OrderInput.num 5) 0 = some (BSplineOutcome.errDegree 5 4)) ∧
    (B_spline_interact [((-2 : ℚ), (0 : ℚ)), (-1, 2), (3, 2), (4, 0)] 4
        (OrderInput.num 0) 0 = some BSplineOutcome.errOrderZero) ∧
    (∃ kn N p,
      B_spline_interact [((-2 : ℚ), (0 : ℚ)), (-1, 2), (3, 2), (4, 0)] 4
        (OrderInput.num 2) 0 = some (BSplineOutcome.ok kn N p)) ∧
    (B_spline_interact [((-2 : ℚ), (0 : ℚ)), (-1, 2), (3, 2), (4, 0)] 4
        (OrderInput.num (-1)) 0 = none) := by
  refine ⟨?_, ?_, ?_, ?_⟩
  · have h := (claim_C7 [((-2 : ℚ), (0 : ℚ)), (-1, 2), (3, 2), (4, 0)] 4
      (OrderInput.num 5) 0).1 (by norm_num [parse_order])
    rw [h]
    norm_num [parse_order]
  · exact (claim_C7 [((-2 : ℚ), (0 : ℚ)), (-1, 2), (3, 2), (4, 0)] 4
      (OrderInput.num 0) 0).2.1 (by norm_num [parse_order]) rfl
  · exact (claim_C7 [((-2 : ℚ), (0 : ℚ)), (-1, 2), (3, 2), (4, 0)] 4
      (OrderInput.num 2) 0).2.2.1 (by norm_num [parse_order])
      (by norm_num [parse_order])
  · exact (claim_C7 [((-2 : ℚ), (0 : ℚ)), (-1, 2), (3, 2), (4, 0)] 4
      (OrderInput.num (-1)) 0).2.2.2.1 (by norm_num [parse_order])

/-- C8, counterexample: the claim says the highlighted index is `round(t/h)`
(resp. `round((t/h)·last_knot)`), but the code computes `int(t/h)`, which
truncates: at `t = 0.035`, `h = 0.01` the code yields `3` while
`round(3.5) = 4`. -/
theorem claim_C8_counterexample :
    bezier_highlight (7/200) (1/100) ≠ round ((7/200 : ℚ) / (1/100)) := by
  have hl : bezier_highlight (7/200) (1/100) = 3 := by
    rw [bezier_highlight, pyInt, if_neg (by norm_num)]
    rw [show (7/200 : ℚ) / (1/100) = 7/2 from by norm_num]
    rw [show ⌊(7/2 : ℚ)⌋ = 3 from by
      rw [Int.floor_eq_iff]
      norm_num]
  have hr : round ((7/200 : ℚ) / (1/100)) = 4 := by
    rw [show (7/200 : ℚ) / (1/100) = 7/2 from by norm_num, round_eq]
    rw [show (7/2 : ℚ) + 1/2 = 4 from by norm_num]
    rw [show ((4 : ℚ)) = ((4 : ℤ) : ℚ) from by norm_num, Int.floor_intCast]
  rw [hl, hr]
  norm_num

/-- C8, amended: the highlighted sample index is derived by Python `int`
truncation, not rounding: `int(t/h)` on the Bézier path and
`int((t/h)·last_knot)` on the B-spline path; for nonnegative arguments this
is the floor of the quantity. -/
theorem claim_C8 (t h : ℚ) (knots : List ℚ) (ht : 0 ≤ t / h)
    (hk : 0 ≤ t / h * knots.getD (knots.length - 1) 0) :
    bezier_highlight t h = ⌊t / h⌋ ∧
    bspline_highlight t h knots =
      ⌊t / h * knots.getD (knots.length - 1) 0⌋ := by
  constructor
  · rw [bezier_highlight, pyInt, if_neg (not_lt.mpr ht)]
  · rw [bspline_highlight, pyInt, if_neg (not_lt.mpr hk)]

/-- Witness for C8 at `t = 0.035`, `h = 0.01`, `knots = [0,0,1,1]`. -/
theorem claim_C8_witness :
    ((0 : ℚ) ≤ (7/200 : ℚ) / (1/100) ∧
     (0 : ℚ) ≤ (7/200 : ℚ) / (1/100) *
       [(0 : ℚ), 0, 1, 1].getD ([(0 : ℚ), 0, 1, 1].length - 1) 0) ∧
    (bezier_highlight (7/200) (1/100) = ⌊(7/200 : ℚ) / (1/100)⌋ ∧
     bspline_highlight (7/200) (1/100) [(0 : ℚ), 0, 1, 1] =
       ⌊(7/200 : ℚ) / (1/100) *
         [(0 : ℚ), 0, 1, 1].getD ([(0 : ℚ), 0, 1, 1].length - 1) 0⌋) := by
  have h2 : (0 : ℚ) ≤ (7/200 : ℚ) / (1/100) *
      [(0 : ℚ), 0, 1, 1].getD ([(0 : ℚ), 0, 1, 1].length - 1) 0 := by
    norm_num [List.getD]
  exact ⟨⟨by norm_num, h2⟩,
    claim_C8 (7/200) (1/100) [(0 : ℚ), 0, 1, 1] (by norm_num) h2⟩

/-- C9: the table built by `blending_func` is jagged: it has `k+1` levels;
the level holding the degree-`d` functions (level `d+1`) has
`len(knots) - d - 1` entries; the level holding the degree-`(k-1)` blending
functions has `len(knots) - k` entries, which is `n+1` for the clamped knot
vector of `n+1` control points; and each level `d ≥ 2` is computed from the
full row of the previous level alone. -/
theorem claim_C9 (u : ℚ) (knots : List ℚ) (k n : ℕ) :
    (blending_func u knots k).length = k + 1 ∧
    (∀ d, d + 1 ≤ k →
      ((blending_func u knots k).getD (d + 1) []).length =
        knots.length - d - 1) ∧
    ((blending_func u knots k).getD k []).length = knots.length - k ∧
    ((blending_func u (non_periodic_knot n k) k).getD k []).length = n + 1 ∧
    (∀ d, blendRow u knots (d + 2) =
      blendStep u knots (d + 2) (blendRow u knots (d + 1))) := by
  refine ⟨by simp [blending_func], ?_, ?_, ?_, fun d => rfl⟩
  · intro d hd
    rw [blending_func_getD u knots k (d + 1) hd, blendRow_length]
    omega
  · rw [blending_func_getD u knots k k (le_refl k), blendRow_length]
  · rw [blending_func_getD u (non_periodic_knot n k) k k (le_refl k),
      blendRow_length, non_periodic_knot_length]
    omega

/-- Witness for C9 at `u = 1/2`, `knots = [0,0,1,1]`, `k = 2`, `n = 1`. -/
theorem claim_C9_witness :
    ((blending_func (1/2) [(0 : ℚ), 0, 1, 1] 2).length = 2 + 1 ∧
     (∀ d, d + 1 ≤ 2 →
       ((blending_func (1/2) [(0 : ℚ), 0, 1, 1] 2).getD (d + 1) []).length =
         [(0 : ℚ), 0, 1, 1].length - d - 1) ∧
     ((blending_func (1/2) [(0 : ℚ), 0, 1, 1] 2).getD 2 []).length =
       [(0 : ℚ), 0, 1, 1].length - 2 ∧
     ((blending_func (1/2) (non_periodic_knot 1 2) 2).getD 2 []).length =
       1 + 1 ∧
     (∀ d, blendRow (1/2) [(0 : ℚ), 0, 1, 1] (d + 2) =
       blendStep (1/2) [(0 : ℚ), 0, 1, 1] (d + 2)
         (blendRow (1/2) [(0 : ℚ), 0, 1, 1] (d + 1)))) :=
  claim_C9 (1/2) [(0 : ℚ), 0, 1, 1] 2 1

/-- C10: passing the empty string as the order argument of
`B_spline_interact` silently defaults the order to `2` and evaluation
proceeds exactly as if `k = 2` had been passed; any other value is coerced
with `int(k)` before validation. -/
theorem claim_C10 :
    parse_order OrderInput.empty = 2 ∧
    (∀ j : ℤ, parse_order (OrderInput.num j) = j) ∧
    (∀ (P : List (ℚ × ℚ)) (pt : ℕ) (u : ℚ),
      B_spline_interact P pt OrderInput.empty u =
        B_spline_interact P pt (OrderInput.num 2) u) :=
  ⟨rfl, fun _ => rfl, fun _ _ _ => rfl⟩

end ParametricCurves
